import Mathlib

/-!
Verification of the `skrills` core (codex-mcp-skills): a shallow embedding of
the state-persistence layer (`crates/state/src/persistence.rs`), the runtime
override cache (`crates/server/src/runtime.rs`), the autoload emission path
(`crates/server/src/emit.rs`) and the manifest renderer
(`crates/server/src/sync.rs`), together with theorems about pinning, history
retention, auto-pinning, error fallback and priority ranking.

Filesystem reads are modelled by a parameter of type
`Option (Except Unit α)`: `none` is a missing file, `some (.error ())` is a
file whose JSON fails to parse, `some (.ok v)` is a file parsing to `v`.
Rust's `Result` becomes `Except Unit`.
-/

namespace Skrills

/-- `HistoryEntry` from `persistence.rs`: timestamp plus the list of skill
names included in that render. -/
structure HistoryEntry where
  ts : Nat
  skills : List String
deriving DecidableEq, Repr

/-- `HISTORY_LIMIT` from `persistence.rs`: maximum retained history entries. -/
def HISTORY_LIMIT : Nat := 50

/-- `AUTO_PIN_WINDOW` from `persistence.rs`: how many recent entries the
auto-pin computation consults. -/
def AUTO_PIN_WINDOW : Nat := 5

/-- `AUTO_PIN_MIN_HITS` from `persistence.rs`: minimum occurrence count within
the window for a skill to be auto-pinned. -/
def AUTO_PIN_MIN_HITS : Nat := 2

/-- The flattened multiset of skill-name occurrences in the last
`AUTO_PIN_WINDOW` history entries, mirroring
`history.iter().rev().take(AUTO_PIN_WINDOW)` followed by the inner loop over
`entry.skills` in `auto_pin_from_history`. -/
def windowSkills (history : List HistoryEntry) : List String :=
  ((history.reverse.take AUTO_PIN_WINDOW).map HistoryEntry.skills).flatten

/-- `auto_pin_from_history` from `persistence.rs`: count every occurrence of
every name across the skills lists of the last `AUTO_PIN_WINDOW` entries and
keep the names whose count is at least `AUTO_PIN_MIN_HITS`. -/
def auto_pin_from_history (history : List HistoryEntry) : Finset String :=
  (windowSkills history).toFinset.filter
    (fun s => AUTO_PIN_MIN_HITS ≤ (windowSkills history).count s)

/-- `load_pinned` from `persistence.rs`: missing file yields the empty set;
a read file is JSON-parsed with `?`, so a parse failure propagates as an
error; a parsed list is collected into a set. -/
def load_pinned (file : Option (Except Unit (List String))) :
    Except Unit (Finset String) :=
  match file with
  | none => .ok ∅
  | some (.error e) => .error e
  | some (.ok list) => .ok list.toFinset

/-- Rust's `str::split(',')` at the character level: split into the (possibly
empty) runs between commas; splitting the empty string yields one empty
piece. -/
def splitCommaChars : List Char → List (List Char)
  | [] => [[]]
  | c :: rest =>
    match splitCommaChars rest with
    | [] => [[]]
    | cur :: done =>
      if c = ',' then [] :: cur :: done else (c :: cur) :: done

/-- Rust's `str::trim` at the character level: strip leading and trailing
whitespace characters. -/
def trimChars (cs : List Char) : List Char :=
  ((cs.dropWhile Char.isWhitespace).reverse.dropWhile Char.isWhitespace).reverse

/-- The token parse inside `load_pinned_with_defaults`: split the
`SKRILLS_PINNED` value on commas, trim each token, drop empty tokens.
`none` models an unset environment variable. -/
def parse_pinned_env (env : Option String) : List String :=
  match env with
  | none => []
  | some s =>
    ((splitCommaChars s.data).map (fun cs => String.mk (trimChars cs))).filter
      (fun t => ¬t.isEmpty)

/-- `load_pinned_with_defaults` from `persistence.rs`: load the persisted
pins (errors propagate) and insert every parsed environment token; the
persisted file itself is not rewritten. -/
def load_pinned_with_defaults (file : Option (Except Unit (List String)))
    (env : Option String) : Except Unit (Finset String) :=
  match load_pinned file with
  | .error e => .error e
  | .ok pins => .ok (pins ∪ (parse_pinned_env env).toFinset)

/-- `load_auto_pin_flag` from `persistence.rs`: missing file yields `false`;
a parse failure propagates as an error. -/
def load_auto_pin_flag (file : Option (Except Unit Bool)) : Except Unit Bool :=
  match file with
  | none => .ok false
  | some (.error e) => .error e
  | some (.ok b) => .ok b

/-- The truncation in `save_history` and `load_history`: when the list
exceeds `HISTORY_LIMIT`, `drain(0..len - HISTORY_LIMIT)` removes entries from
the front, keeping the most recent `HISTORY_LIMIT`. -/
def truncate_history (history : List HistoryEntry) : List HistoryEntry :=
  if HISTORY_LIMIT < history.length then
    history.drop (history.length - HISTORY_LIMIT)
  else history

/-- `save_history` from `persistence.rs`, modelled as the list that is
serialized to the history file: the input truncated to the most recent
`HISTORY_LIMIT` entries. -/
def save_history (history : List HistoryEntry) : List HistoryEntry :=
  truncate_history history

/-- `load_history` from `persistence.rs`: missing file yields the empty
list; a parse failure propagates; an oversized parsed list is truncated to
the most recent `HISTORY_LIMIT` entries. -/
def load_history (file : Option (Except Unit (List HistoryEntry))) :
    Except Unit (List HistoryEntry) :=
  match file with
  | none => .ok []
  | some (.error e) => .error e
  | some (.ok list) => .ok (truncate_history list)

/-! ## Runtime overrides (`crates/server/src/runtime.rs`) -/

/-- `RuntimeOverrides` from `runtime.rs`: three optional boolean overrides.
Rust's `Default` gives all `None`. -/
structure RuntimeOverrides where
  manifest_first : Option Bool
  render_mode_log : Option Bool
  manifest_minimal : Option Bool
deriving DecidableEq, Repr

/-- The `Default` impl for `RuntimeOverrides`. -/
def RuntimeOverrides.default : RuntimeOverrides := ⟨none, none, none⟩

/-- `RuntimeOverrides::load`: a present, readable, parsable file yields its
value; every failure (no path, read failure, parse failure) falls through to
`Ok(RuntimeOverrides::default())` — this function never returns an error. -/
def RuntimeOverrides.load (file : Option (Except Unit RuntimeOverrides)) :
    Except Unit RuntimeOverrides :=
  match file with
  | some (.ok v) => .ok v
  | _ => .ok RuntimeOverrides.default

/-- One call to `runtime_overrides_cached` from `runtime.rs`, as a step on
the process-wide cache state (`RUNTIME_CACHE`): a filled cache is returned
unchanged; an empty cache loads from the file and stores the result.
Returns (value handed to the caller, cache state after the call). -/
def runtime_overrides_cached (cache : Option RuntimeOverrides)
    (file : Option (Except Unit RuntimeOverrides)) :
    RuntimeOverrides × Option RuntimeOverrides :=
  match cache with
  | some v => (v, some v)
  | none =>
    match RuntimeOverrides.load file with
    | .ok v => (v, some v)
    | .error _ => (RuntimeOverrides.default, none)

/-! ## Autoload emission (`crates/server/src/emit.rs`) -/

/-- The effective pin set computed by `emit_autoload` (emit.rs lines 84-92):
`load_pinned().unwrap_or_default()` unioned with the auto-pin set when
`auto_pin` is set. `env` models the `SKRILLS_PINNED` environment variable,
which `emit_autoload` never reads — it calls `load_pinned`, not
`load_pinned_with_defaults`. -/
def emit_effective_pins (pinnedFile : Option (Except Unit (List String)))
    (env : Option String) (historyFile : Option (Except Unit (List HistoryEntry)))
    (auto_pin : Bool) : Finset String :=
  let _ := env
  let manual_pins := (load_pinned pinnedFile).toOption.getD ∅
  let history := (load_history historyFile).toOption.getD []
  let auto_pins := if auto_pin then auto_pin_from_history history else ∅
  manual_pins ∪ auto_pins

/-- The JSON payload printed by `emit_autoload`, modelled structurally:
`hookSpecificOutput.hookEventName` and `additionalContext`. -/
structure HookPayload where
  hookEventName : String
  additionalContext : String
deriving DecidableEq, Repr

/-- The tail of `emit_autoload` (emit.rs lines 130-152) after rendering
produced `content` and `matched`: append a history entry with the sorted
matched names, attempt `save_history` — whose outcome `saveOutcome` is
discarded by `let _ = save_history(history)` — then print the payload and
return success. Returns (printed payload as an `Except`, list written to the
history file). -/
def emit_finish (history : List HistoryEntry) (ts : Nat)
    (matched : Finset String) (content : String)
    (saveOutcome : Except Unit Unit) :
    Except Unit HookPayload × List HistoryEntry :=
  let matched_vec := matched.sort (· ≤ ·)
  let history := history ++ [⟨ts, matched_vec⟩]
  let saved := save_history history
  let _ := saveOutcome
  (.ok ⟨"UserPromptSubmit", content⟩, saved)

/-! ## Manifest rendering (`crates/server/src/sync.rs`) -/

/-- The skill record fields `render_available_skills_xml` reads from
`SkillMeta` (name, source label, source location, path). -/
structure SkillMeta where
  name : String
  sourceLabel : String
  sourceLocation : String
  path : String
deriving DecidableEq, Repr

/-- The priority rank computed in `render_available_skills_xml`
(sync.rs lines 90-95): `position(|p| p == label).map(|i| i + 1)` with
`unwrap_or(priority_order.len() + 1)`. -/
def priorityRank (order : List String) (label : String) : Nat :=
  match order.findIdx? (fun p => p == label) with
  | some i => i + 1
  | none => order.length + 1

/-- One `<skill ... />` line of the XML manifest (sync.rs lines 96-103). -/
def skill_xml_line (order : List String) (s : SkillMeta) : String :=
  "  <skill name=\"" ++ s.name ++ "\" source=\"" ++ s.sourceLabel ++
    "\" location=\"" ++ s.sourceLocation ++ "\" path=\"" ++ s.path ++
    "\" priority_rank=\"" ++ toString (priorityRank order s.sourceLabel) ++
    "\" />\n"

/-- `render_available_skills_xml` from `sync.rs`: header with timestamp and
the comma-joined priority order, one line per skill, closing tag. `order`
stands for `priority_labels()` (defined in the discovery module, not among
the provided sources) and `ts` for the system clock. -/
def render_available_skills_xml (order : List String) (ts : Nat)
    (skills : List SkillMeta) : String :=
  "<available_skills generated_at_utc=\"" ++ toString ts ++
      "\" priority=\"" ++ String.intercalate "," order ++ "\">\n" ++
    String.join (skills.map (skill_xml_line order)) ++
    "</available_skills>"

/-! ## Budget Renderer (spec §4.4) -/

/-- Relevance verdict of the Relevance Engine (spec §4.3). -/
inductive Verdict
  | PreloadMatch
  | PromptMatch
  | NoMatch
deriving DecidableEq, Repr

/-- The skill fields the Budget Renderer reads: name, source label (for the
priority order) and body text (whose byte size is charged to the budget). -/
structure Skill where
  name : String
  sourceLabel : String
  body : String
deriving DecidableEq, Repr

/-- Spec §4.4 step 1: a skill is guaranteed when it is pinned or its verdict
is `PreloadMatch`. -/
def isGuaranteed (pins : Finset String) (verdict : String → Verdict)
    (s : Skill) : Bool :=
  decide (s.name ∈ pins) || decide (verdict s.name = Verdict.PreloadMatch)

/-- Spec §4.4 step 2 first key: `PromptMatch` orders before `NoMatch`. -/
def matchRank (verdict : String → Verdict) (s : Skill) : Nat :=
  if verdict s.name = Verdict.PromptMatch then 0 else 1

/-- Spec §4.4 step 2 ordering on candidates: match status, then source
priority, ties broken by name ascending. -/
def candidate_le (order : List String) (verdict : String → Verdict)
    (a b : Skill) : Bool :=
  decide (matchRank verdict a < matchRank verdict b) ||
    (decide (matchRank verdict a = matchRank verdict b) &&
      (decide (priorityRank order a.sourceLabel < priorityRank order b.sourceLabel) ||
        (decide (priorityRank order a.sourceLabel = priorityRank order b.sourceLabel) &&
          decide (a.name ≤ b.name))))

/-- Spec §4.4 step 4: walk the ordered candidates, accumulating rendered
bytes on top of `used`, appending while the running total stays within the
budget and stopping at the first candidate that would exceed it. -/
def takeWithinBudget (budget : Nat) : Nat → List Skill → List Skill
  | _, [] => []
  | used, s :: rest =>
    if used + s.body.length ≤ budget then
      s :: takeWithinBudget budget (used + s.body.length) rest
    else []

/-- Modelled from the spec: the Budget Renderer selection `render_autoload`
(spec §4.4); its implementation (the server's autoload module) is not among
the provided sources. Step 1 partitions into guaranteed and candidates;
step 2 orders candidates; step 3 includes all guaranteed skills
unconditionally, even over budget; step 4 appends candidates within the
remaining budget; step 5 returns the included skills and `matchedNames`,
the set of names actually included. -/
def render_autoload (catalog : List Skill) (pins : Finset String)
    (verdict : String → Verdict) (order : List String) (budget : Nat) :
    List Skill × Finset String :=
  let guaranteed := catalog.filter (fun s => isGuaranteed pins verdict s)
  let candidates := catalog.filter (fun s => !isGuaranteed pins verdict s)
  let orderedCandidates := candidates.mergeSort (candidate_le order verdict)
  let guaranteedBytes := (guaranteed.map (fun s => s.body.length)).sum
  let accepted := takeWithinBudget budget guaranteedBytes orderedCandidates
  let included := guaranteed ++ accepted
  (included, (included.map Skill.name).toFinset)

/-! ## Helper lemmas -/

/-- Counting occurrences in a flattened list where each block holds the name
at most once equals counting the blocks that contain it. -/
lemma count_flatten_eq_countP (L : List (List String)) (name : String)
    (h : ∀ l ∈ L, l.count name ≤ 1) :
    L.flatten.count name = L.countP (fun l => decide (name ∈ l)) := by
  induction L with
  | nil => simp
  | cons head tail ih =>
    simp only [List.flatten_cons, List.count_append, List.countP_cons]
    have hhead := h head (by simp)
    have htail := ih (fun l hl => h l (by simp [hl]))
    by_cases hm : name ∈ head
    · have h1 : head.count name = 1 :=
        le_antisymm hhead (List.count_pos_iff.mpr hm)
      rw [h1, htail]
      simp [hm]
      omega
    · have h0 : head.count name = 0 := List.count_eq_zero.mpr hm
      rw [h0, htail]
      simp [hm]

/-- A block of a flattened list contributes all its occurrences. -/
lemma count_le_count_flatten (L : List (List String)) (l : List String)
    (name : String) (h : l ∈ L) :
    l.count name ≤ L.flatten.count name := by
  induction L with
  | nil => simp at h
  | cons head tail ih =>
    simp only [List.flatten_cons, List.count_append]
    rcases List.mem_cons.mp h with rfl | hmem
    · exact Nat.le_add_right _ _
    · exact le_add_of_nonneg_of_le (Nat.zero_le _) (ih hmem)

/-- Membership in the auto-pin set unfolds to an occurrence-count bound over
the flattened window. -/
lemma mem_auto_pin_iff (history : List HistoryEntry) (name : String) :
    name ∈ auto_pin_from_history history ↔
      name ∈ windowSkills history ∧
        AUTO_PIN_MIN_HITS ≤ (windowSkills history).count name := by
  simp [auto_pin_from_history, Finset.mem_filter, List.mem_toFinset]

/-- The window count equals the per-entry containment count when no entry
repeats the name. -/
lemma windowSkills_count_eq_countP (history : List HistoryEntry) (name : String)
    (honce : ∀ e ∈ history.reverse.take AUTO_PIN_WINDOW,
      e.skills.count name ≤ 1) :
    (windowSkills history).count name =
      (history.reverse.take AUTO_PIN_WINDOW).countP
        (fun e => decide (name ∈ e.skills)) := by
  unfold windowSkills
  rw [count_flatten_eq_countP]
  · rw [List.countP_map]
    rfl
  · intro l hl
    rcases List.mem_map.mp hl with ⟨e, he, rfl⟩
    exact honce e he

/-- `priorityRank` in closed form: one past the first index of the label,
or one past the order's length when absent. -/
lemma priorityRank_eq (order : List String) (label : String) :
    priorityRank order label =
      if label ∈ order then order.indexOf label + 1 else order.length + 1 := by
  unfold priorityRank
  cases h : order.findIdx? (fun p => p == label) with
  | some i =>
    obtain ⟨hlt, hp, _⟩ := List.findIdx?_eq_some_iff_getElem.mp h
    have hmem : label ∈ order := by
      have : order[i] = label := by simpa using hp
      rw [← this]
      exact List.getElem_mem _
    obtain ⟨_, hidx⟩ := List.findIdx?_eq_some_iff_findIdx_eq.mp h
    rw [if_pos hmem]
    have hio : order.indexOf label = order.findIdx (fun p => p == label) := rfl
    rw [hio, hidx]
  | none =>
    have hall := List.findIdx?_eq_none_iff.mp h
    have hmem : label ∉ order := by
      intro hmem
      have := hall label hmem
      simp at this
    rw [if_neg hmem]

/-! ## Claim theorems -/

/-- C2: with window `W = 5` and threshold `T = 2`, a name occurring (once per
entry) in exactly `T - 1` of the last `W` history entries is not auto-pinned,
one occurring in exactly `T` of them is auto-pinned, and entries older than
the last `W` are never consulted: the result is unchanged when the history is
trimmed to its last `W` entries. -/
theorem auto_pin_threshold (history : List HistoryEntry) (name : String)
    (honce : ∀ e ∈ history.reverse.take AUTO_PIN_WINDOW,
      e.skills.count name ≤ 1) :
    ((history.reverse.take AUTO_PIN_WINDOW).countP
        (fun e => decide (name ∈ e.skills)) = AUTO_PIN_MIN_HITS - 1 →
      name ∉ auto_pin_from_history history) ∧
    ((history.reverse.take AUTO_PIN_WINDOW).countP
        (fun e => decide (name ∈ e.skills)) = AUTO_PIN_MIN_HITS →
      name ∈ auto_pin_from_history history) ∧
    auto_pin_from_history history =
      auto_pin_from_history ((history.reverse.take AUTO_PIN_WINDOW).reverse) := by
  have hcount := windowSkills_count_eq_countP history name honce
  have hwindow : windowSkills ((history.reverse.take AUTO_PIN_WINDOW).reverse)
      = windowSkills history := by
    unfold windowSkills
    rw [List.reverse_reverse, List.take_take]
    simp
  refine ⟨?_, ?_, ?_⟩
  · intro hc hmem
    rw [mem_auto_pin_iff] at hmem
    rw [hcount, hc] at hmem
    simp [AUTO_PIN_MIN_HITS] at hmem
  · intro hc
    rw [mem_auto_pin_iff, hcount, hc]
    refine ⟨?_, le_refl _⟩
    have hpos : 0 < (windowSkills history).count name := by
      rw [hcount, hc]
      simp [AUTO_PIN_MIN_HITS]
    exact List.count_pos_iff.mp hpos
  · unfold auto_pin_from_history
    rw [hwindow]

/-- C2 witness: in the history `[(0, [a]), (1, [a]), (2, [b])]` the name `a`
occurs once in each of two window entries and is auto-pinned, while `b`
occurs in only one entry and is not. -/
theorem auto_pin_threshold_witness :
    "a" ∈ auto_pin_from_history
        [⟨0, ["a"]⟩, ⟨1, ["a"]⟩, ⟨2, ["b"]⟩] ∧
      "b" ∉ auto_pin_from_history
        [⟨0, ["a"]⟩, ⟨1, ["a"]⟩, ⟨2, ["b"]⟩] := by
  constructor
  · exact (auto_pin_threshold [⟨0, ["a"]⟩, ⟨1, ["a"]⟩, ⟨2, ["b"]⟩] "a"
      (by decide)).2.1 (by decide)
  · exact (auto_pin_threshold [⟨0, ["a"]⟩, ⟨1, ["a"]⟩, ⟨2, ["b"]⟩] "b"
      (by decide)).1 (by decide)

/-- C3: appending one entry and saving leaves at most `HISTORY_LIMIT = 50`
entries; the saved list is a suffix of the appended list (only the oldest
entries are dropped, survivors keep their oldest-first order); when the
appended list exceeds the limit, exactly the front overflow is dropped; and
`load_history` applies the same cap to an oversized parsed file. -/
theorem history_fifo_cap (h : List HistoryEntry) (e : HistoryEntry) :
    (save_history (h ++ [e])).length ≤ HISTORY_LIMIT ∧
    (save_history (h ++ [e])) <:+ (h ++ [e]) ∧
    (HISTORY_LIMIT < (h ++ [e]).length →
      save_history (h ++ [e]) =
        (h ++ [e]).drop ((h ++ [e]).length - HISTORY_LIMIT)) ∧
    load_history (some (.ok (h ++ [e]))) = .ok (save_history (h ++ [e])) := by
  refine ⟨?_, ?_, ?_, rfl⟩
  · unfold save_history truncate_history
    split
    · rw [List.length_drop]
      omega
    · omega
  · unfold save_history truncate_history
    split
    · exact List.drop_suffix _ _
    · exact List.suffix_refl _
  · intro hlong
    unfold save_history truncate_history
    rw [if_pos hlong]

/-- C3 witness: appending to a 50-entry history leaves 50 entries and drops
the single oldest entry from the front. -/
theorem history_fifo_cap_witness :
    (save_history ((List.range 50).map (fun i => HistoryEntry.mk i []) ++
        [HistoryEntry.mk 50 []])).length ≤ HISTORY_LIMIT ∧
      save_history ((List.range 50).map (fun i => HistoryEntry.mk i []) ++
          [HistoryEntry.mk 50 []]) =
        ((List.range 50).map (fun i => HistoryEntry.mk i []) ++
            [HistoryEntry.mk 50 []]).drop 1 := by
  constructor
  · exact (history_fifo_cap ((List.range 50).map (fun i => HistoryEntry.mk i []))
      (HistoryEntry.mk 50 [])).1
  · have := (history_fifo_cap ((List.range 50).map (fun i => HistoryEntry.mk i []))
      (HistoryEntry.mk 50 [])).2.2.1 (by decide)
    simpa using this

/-- C9: `auto_pin_from_history` counts every occurrence, including repeats
inside a single entry: a name listed at least `AUTO_PIN_MIN_HITS` times
within one window entry's skills list is auto-pinned even if it appears in no
other entry. -/
theorem auto_pin_counts_repeats (history : List HistoryEntry)
    (e : HistoryEntry) (name : String)
    (he : e ∈ history.reverse.take AUTO_PIN_WINDOW)
    (hc : AUTO_PIN_MIN_HITS ≤ e.skills.count name) :
    name ∈ auto_pin_from_history history := by
  have hle : e.skills.count name ≤ (windowSkills history).count name := by
    unfold windowSkills
    exact count_le_count_flatten _ _ _ (List.mem_map_of_mem HistoryEntry.skills he)
  rw [mem_auto_pin_iff]
  refine ⟨?_, le_trans hc hle⟩
  have hpos : 0 < (windowSkills history).count name := by
    have : 0 < AUTO_PIN_MIN_HITS := by simp [AUTO_PIN_MIN_HITS]
    omega
  exact List.count_pos_iff.mp hpos

/-- C9 witness: the single entry `(0, [dup, dup])` auto-pins `dup` even
though it occupies only one entry of the window. -/
theorem auto_pin_counts_repeats_witness :
    "dup" ∈ auto_pin_from_history [⟨0, ["dup", "dup"]⟩] :=
  auto_pin_counts_repeats [⟨0, ["dup", "dup"]⟩] ⟨0, ["dup", "dup"]⟩ "dup"
    (by decide) (by decide)

/-- C4 counterexample: with no persisted pins, `SKRILLS_PINNED=alpha` and
auto-pin disabled, the env value parses to the token `alpha`, yet the
effective pin set `emit_autoload` passes to rendering does not contain
`alpha` — `emit_autoload` calls `load_pinned`, never
`load_pinned_with_defaults`, so env-seeded pins are not merged. -/
theorem emit_pins_env_counterexample :
    parse_pinned_env (some "alpha") = ["alpha"] ∧
    "alpha" ∉ emit_effective_pins (some (.ok [])) (some "alpha")
      (some (.ok [])) false := by
  constructor
  · decide
  · decide

/-- C4 amended: the effective pin set `emit_autoload` passes to rendering is
the union of the persisted manual pins and, when enabled, the auto-pin set
from history; it is independent of `SKRILLS_PINNED`; the merge removes
nothing (manual and auto pins are both subsets); env-seeded tokens are
merged only by `load_pinned_with_defaults`, which unions them into the
loaded pins without writing them back. -/
theorem emit_pins_amended (pinnedFile : Option (Except Unit (List String)))
    (env env' : Option String)
    (historyFile : Option (Except Unit (List HistoryEntry)))
    (flag : Bool) (pins : Finset String) :
    emit_effective_pins pinnedFile env historyFile flag =
      emit_effective_pins pinnedFile env' historyFile flag ∧
    (load_pinned pinnedFile).toOption.getD ∅ ⊆
      emit_effective_pins pinnedFile env historyFile flag ∧
    (flag = true →
      auto_pin_from_history ((load_history historyFile).toOption.getD []) ⊆
        emit_effective_pins pinnedFile env historyFile flag) ∧
    (load_pinned pinnedFile = .ok pins →
      load_pinned_with_defaults pinnedFile env =
        .ok (pins ∪ (parse_pinned_env env).toFinset)) := by
  refine ⟨rfl, ?_, ?_, ?_⟩
  · exact Finset.subset_union_left
  · intro hflag
    unfold emit_effective_pins
    rw [hflag]
    simp
  · intro hload
    unfold load_pinned_with_defaults
    rw [hload]

/-- C4 amended witness: with persisted pin `m`, env value `e`, a history
auto-pinning `a` and auto-pin enabled, the effective set is the same whether
or not the env value is present, contains the manual and auto pins, and
`load_pinned_with_defaults` yields the union with the parsed env token. -/
theorem emit_pins_amended_witness :
    emit_effective_pins (some (.ok ["m"])) (some "e")
        (some (.ok [⟨0, ["a"]⟩, ⟨1, ["a"]⟩])) true =
      emit_effective_pins (some (.ok ["m"])) none
        (some (.ok [⟨0, ["a"]⟩, ⟨1, ["a"]⟩])) true ∧
    load_pinned_with_defaults (some (.ok ["m"])) (some "e") =
      .ok (({"m"} : Finset String) ∪ (parse_pinned_env (some "e")).toFinset) := by
  constructor
  · exact (emit_pins_amended (some (.ok ["m"])) (some "e") none
      (some (.ok [⟨0, ["a"]⟩, ⟨1, ["a"]⟩])) true ∅).1
  · have h1 : (["m"] : List String).toFinset = ({"m"} : Finset String) := by
      decide
    have h2 : load_pinned (some (.ok ["m"])) = .ok ({"m"} : Finset String) := by
      simp [load_pinned, h1]
    have := (emit_pins_amended (some (.ok ["m"])) (some "e") none
      (some (.ok [⟨0, ["a"]⟩, ⟨1, ["a"]⟩])) true {"m"}).2.2.2 h2
    simpa using this

/-- C5: a persisted state file with unparsable JSON makes the affected store
fall back to its empty/default value at the point of use: `load_pinned`,
`load_history` and `load_auto_pin_flag` propagate the parse error without
partial recovery, their callers substitute the defaults
(`unwrap_or_default()` / `unwrap_or(false)`), `RuntimeOverrides::load`
swallows the parse failure into the default, and the emission path computes
an empty pin set rather than failing. -/
theorem malformed_state_falls_back :
    load_pinned (some (.error ())) = .error () ∧
    (load_pinned (some (.error ()))).toOption.getD ∅ = ∅ ∧
    (load_history (some (.error ()))).toOption.getD [] = [] ∧
    (load_auto_pin_flag (some (.error ()))).toOption.getD false = false ∧
    RuntimeOverrides.load (some (.error ())) = .ok RuntimeOverrides.default ∧
    emit_effective_pins (some (.error ())) none (some (.error ())) true = ∅ := by
  refine ⟨rfl, rfl, rfl, rfl, rfl, ?_⟩
  decide

/-- C6: a missing backing file makes each load function return its
empty/default value as a success: empty pin set, `false` auto-pin flag,
empty history. -/
theorem missing_files_default :
    load_pinned none = .ok ∅ ∧
    load_auto_pin_flag none = .ok false ∧
    load_history none = .ok [] :=
  ⟨rfl, rfl, rfl⟩

/-- C7: once `runtime_overrides_cached` holds a cached value, every later
call returns that value and leaves the cache unchanged, whatever the
overrides file now contains; and the first call from an empty cache always
fills the cache with the value it returns (the load never fails), so the
first successful load wins for the rest of the process. -/
theorem runtime_cache_first_load_wins (v : RuntimeOverrides)
    (file file' : Option (Except Unit RuntimeOverrides)) :
    runtime_overrides_cached (some v) file = (v, some v) ∧
    (runtime_overrides_cached none file).2 =
      some (runtime_overrides_cached none file).1 ∧
    (runtime_overrides_cached (runtime_overrides_cached none file).2 file').1 =
      (runtime_overrides_cached none file).1 := by
  refine ⟨rfl, ?_, ?_⟩
  · cases file with
    | none => rfl
    | some r => cases r with
      | ok w => rfl
      | error e => rfl
  · cases file with
    | none => rfl
    | some r => cases r with
      | ok w => rfl
      | error e => rfl

/-- C10: the history write outcome is discarded by
`let _ = save_history(history)` in `emit_autoload`: the emission prints the
payload and returns success whether the save succeeded or failed, and its
entire result is independent of the save outcome. -/
theorem save_failure_ignored (history : List HistoryEntry) (ts : Nat)
    (matched : Finset String) (content : String)
    (outcome : Except Unit Unit) :
    (emit_finish history ts matched content outcome).1 =
      .ok ⟨"UserPromptSubmit", content⟩ ∧
    emit_finish history ts matched content outcome =
      emit_finish history ts matched content (.error ()) :=
  ⟨rfl, rfl⟩

/-- C8: the priority rank emitted in the manifest equals the 1-based
position of the skill's source label in the fixed source-priority order,
and `order.length + 1` when the label does not occur in that order. -/
theorem priority_rank_correct (order : List String) (label : String) :
    (label ∈ order → priorityRank order label = order.indexOf label + 1) ∧
    (label ∉ order → priorityRank order label = order.length + 1) := by
  rw [priorityRank_eq]
  constructor <;> intro h <;> simp [h]

/-- C8 witness: in the order `[codex, claude]` the label `claude` ranks 2
(its 1-based position) and an unknown label ranks 3 (length + 1). -/
theorem priority_rank_correct_witness :
    priorityRank ["codex", "claude"] "claude" = 2 ∧
    priorityRank ["codex", "claude"] "zzz" = 3 := by
  constructor
  · have := (priority_rank_correct ["codex", "claude"] "claude").1 (by decide)
    rw [this]
    decide
  · have := (priority_rank_correct ["codex", "claude"] "zzz").2 (by decide)
    rw [this]
    decide

/-- C1: every catalog skill whose name is pinned or whose verdict is
`PreloadMatch` is included in the rendered selection and its name appears in
the returned `matchedNames` set, for every byte budget — including one
smaller than the guaranteed content alone. -/
theorem guaranteed_inclusion (catalog : List Skill) (pins : Finset String)
    (verdict : String → Verdict) (order : List String) (budget : Nat)
    (s : Skill) (hs : s ∈ catalog)
    (hg : s.name ∈ pins ∨ verdict s.name = Verdict.PreloadMatch) :
    s ∈ (render_autoload catalog pins verdict order budget).1 ∧
    s.name ∈ (render_autoload catalog pins verdict order budget).2 := by
  have hguar : s ∈ catalog.filter (fun t => isGuaranteed pins verdict t) := by
    rw [List.mem_filter]
    refine ⟨hs, ?_⟩
    unfold isGuaranteed
    rcases hg with h | h
    · simp [h]
    · simp [h]
  refine ⟨List.mem_append_left _ hguar, ?_⟩
  exact List.mem_toFinset.mpr
    (List.mem_map_of_mem Skill.name (List.mem_append_left _ hguar))

/-- C1 witness: the pinned skill `a` is included and matched even with a
byte budget of 0, below the size of its own body. -/
theorem guaranteed_inclusion_witness :
    (⟨"a", "codex", "body"⟩ : Skill) ∈
      (render_autoload [⟨"a", "codex", "body"⟩] {"a"}
        (fun _ => Verdict.NoMatch) ["codex"] 0).1 ∧
    "a" ∈ (render_autoload [⟨"a", "codex", "body"⟩] {"a"}
        (fun _ => Verdict.NoMatch) ["codex"] 0).2 :=
  guaranteed_inclusion [⟨"a", "codex", "body"⟩] {"a"}
    (fun _ => Verdict.NoMatch) ["codex"] 0 ⟨"a", "codex", "body"⟩
    (by decide) (Or.inl (by decide))

end Skrills
